import Mathlib

/-!
Shallow embedding of the I/O binding layer of `src/assembly/wasa.ts`
(the `IO` and `Console` classes over the WASI primitives `fd_read` /
`fd_write` and the arena allocator `memory.allocate` / `memory.free`).

Bytes are modelled as `Nat`, buffers as identifiers into an association
list from identifier to byte contents, and the two machine-word views the
code uses (the `(pointer, length)` pairs stored into an I/O-vector region
with `store<u32>`, and the `usize` count cell written by the host and read
with `load<usize>`) as separate association lists keyed by the same
identifiers.  The host behind `fd_read` is a queue of responses; `fd_write`
is recorded as a trace of calls carrying the vector entries and the bytes
of each region at call time.  Freshly allocated arena memory is
zero-initialised, as in the source's bump allocator which never reuses a
region.
-/

set_option linter.unusedVariables false

namespace Wasa

/-- Model of a WASI file descriptor (`export type Descriptor = fd`). -/
abbrev Descriptor := Nat

/-- `sizeof<usize>()` on wasm32. -/
def usizeSize : Nat := 4

/-- One event of the arena allocator: `memory.allocate(size)` returning
region `id`, or `memory.free(id)`. -/
inductive MemEvent where
  | alloc (id size : Nat)
  | free (id : Nat)
deriving DecidableEq

/-- One `fd_write` syscall as the host observes it: the descriptor, the
`(address, length)` vector entries passed, and the bytes of each region at
call time. -/
structure WriteCall where
  fd : Descriptor
  iovs : List (Nat × Nat)
  regions : List (List Nat)
deriving DecidableEq

/-- One host response to an `fd_read` syscall: the returned `errno` status
(`0` = `errno.SUCCESS`) and, on success, the bytes the host has available
for this call (placed into the destination region up to its capacity). -/
structure ReadResult where
  status : Nat
  bytes : List Nat
deriving DecidableEq

/-- The machine state threaded through every operation of the layer. -/
structure Machine where
  /-- Next fresh region identifier of the bump allocator. -/
  next : Nat
  /-- Byte contents of each allocated region. -/
  heap : List (Nat × List Nat)
  /-- The `(pointer, length)` entries stored into an I/O-vector region. -/
  vecs : List (Nat × List (Nat × Nat))
  /-- The `usize` word cells written by the host (`written_ptr`/`read_ptr`). -/
  cells : List (Nat × Nat)
  /-- Trace of allocator events. -/
  events : List MemEvent
  /-- Trace of `fd_write` syscalls. -/
  calls : List WriteCall
  /-- Number of `fd_read` syscalls issued. -/
  reads : Nat
  /-- Pending host responses for `fd_read`, consumed in order. -/
  host : List ReadResult
deriving DecidableEq

/-- First value associated to a key, or a default. -/
def assocGet {α : Type} (dflt : α) : List (Nat × α) → Nat → α
  | [], _ => dflt
  | e :: rest, id => if e.1 = id then e.2 else assocGet dflt rest id

/-- Byte contents of region `id`. -/
def heapGet (h : List (Nat × List Nat)) (id : Nat) : List Nat :=
  assocGet [] h id

/-- `memory.allocate(size)`: returns a fresh zero-initialised region and
records the allocation event. -/
def allocate (m : Machine) (size : Nat) : Nat × Machine :=
  (m.next,
   { m with
     next := m.next + 1
     heap := (m.next, List.replicate size 0) :: m.heap
     vecs := (m.next, []) :: m.vecs
     cells := (m.next, 0) :: m.cells
     events := m.events ++ [MemEvent.alloc m.next size] })

/-- `memory.free(id)`: releases the region and records the event. -/
def free (m : Machine) (id : Nat) : Machine :=
  { m with
    heap := m.heap.filter (fun e => e.1 ≠ id)
    events := m.events ++ [MemEvent.free id] }

/-- `store<u8>(buf + i, v)`. -/
def store8 (m : Machine) (buf i v : Nat) : Machine :=
  { m with heap := (buf, (heapGet m.heap buf).set i v) :: m.heap }

/-- `load<u8>(buf + i)`. -/
def load8 (m : Machine) (buf i : Nat) : Nat :=
  (heapGet m.heap buf).getD i 0

/-- The pair of `store<u32>` instructions writing the next `(pointer,
length)` entry of the I/O-vector region `iov`. -/
def storeVecEntry (m : Machine) (iov : Nat) (entry : Nat × Nat) : Machine :=
  { m with vecs := (iov, assocGet [] m.vecs iov ++ [entry]) :: m.vecs }

/-- The host writing a `usize` value into a word cell. -/
def storeWord (m : Machine) (p v : Nat) : Machine :=
  { m with cells := (p, v) :: m.cells }

/-- `load<usize>(p)`. -/
def loadWord (m : Machine) (p : Nat) : Nat :=
  assocGet 0 m.cells p

/-- The host placing `bs` at the start of region `ptr` during `fd_read`. -/
def writeBuf (m : Machine) (ptr : Nat) (bs : List Nat) : Machine :=
  { m with heap := (ptr, bs ++ (heapGet m.heap ptr).drop bs.length) :: m.heap }

/-- The WASI `fd_write(fd, iov, iovcnt, written_ptr)` primitive: reads the
first `iovcnt` vector entries, gathers the bytes of each region, records
the call, stores the transferred count, and returns `errno.SUCCESS`. -/
def fd_write (m : Machine) (fd : Descriptor) (iov iovcnt writtenPtr : Nat) :
    Nat × Machine :=
  let entries := (assocGet [] m.vecs iov).take iovcnt
  let regions := entries.map (fun e => (heapGet m.heap e.1).take e.2)
  let total := (regions.map (fun r => r.length)).sum
  (0, storeWord { m with calls := m.calls ++ [⟨fd, entries, regions⟩] }
        writtenPtr total)

/-- The WASI `fd_read(fd, iov, iovcnt, read_ptr)` primitive: consumes the
next host response.  An exhausted host is end-of-stream (`SUCCESS` with a
zero count).  On a failure status nothing is placed and the count cell is
not written; on success the response bytes are placed into the destination
region up to its capacity and the count is stored into `read_ptr`. -/
def fd_read (m : Machine) (fd : Descriptor) (iov iovcnt readPtr : Nat) :
    Nat × Machine :=
  let entry := ((assocGet [] m.vecs iov).take iovcnt).headD (0, 0)
  match m.host with
  | [] => (0, storeWord { m with reads := m.reads + 1 } readPtr 0)
  | r :: rest =>
    let m1 := { m with host := rest, reads := m.reads + 1 }
    if r.status ≠ 0 then (r.status, m1)
    else
      let placed := r.bytes.take entry.2
      (0, storeWord (writeBuf m1 entry.1 placed) readPtr placed.length)

/-- The copy loop `for (let i = ..; ..; i++) store<u8>(buf + i, data[i])`
starting at offset `i`. -/
def copyLoop (m : Machine) (buf : Nat) : List Nat → Nat → Machine
  | [], _ => m
  | b :: rest, i => copyLoop (store8 m buf i b) buf rest (i + 1)

/-- The push loop `for (let i = lo; i < n; i++) data.push(load<u8>(buf + i))`. -/
def pushLoop (m : Machine) (buf : Nat) (i n : Nat) (data : List Nat) : List Nat :=
  if i < n then pushLoop m buf (i + 1) n (data ++ [load8 m buf i]) else data
termination_by n - i

/-- UTF-8 encoding of one Unicode scalar value, as produced by the
AssemblyScript runtime's `String#toUTF8`. -/
def utf8EncodeChar (c : Nat) : List Nat :=
  if c < 0x80 then [c]
  else if c < 0x800 then [0xC0 + c / 64, 0x80 + c % 64]
  else if c < 0x10000 then
    [0xE0 + c / 4096, 0x80 + (c / 64) % 64, 0x80 + c % 64]
  else
    [0xF0 + c / 262144, 0x80 + (c / 4096) % 64, 0x80 + (c / 64) % 64,
     0x80 + c % 64]

/-- A string of the source, modelled as its sequence of Unicode scalar
values. -/
abbrev Text := List Nat

/-- A scalar value the UTF-8 encoder is well-defined on. -/
def ValidCodePoint (c : Nat) : Prop :=
  c < 0x110000 ∧ (c < 0xD800 ∨ 0xE000 ≤ c)

instance (c : Nat) : Decidable (ValidCodePoint c) := by
  unfold ValidCodePoint; infer_instance

/-- UTF-8 encoding of a string. -/
def utf8Encode (s : Text) : List Nat :=
  (s.map utf8EncodeChar).flatten

/-- UTF-8 decoding, as performed by the AssemblyScript runtime's
`String.fromUTF8` (behaviour on malformed input is not relied upon): the
lead byte selects the sequence length, the continuation bytes contribute
six bits each. -/
def utf8Decode : List Nat → Text
  | [] => []
  | b :: rest =>
    if b < 0x80 then b :: utf8Decode rest
    else if b < 0xE0 then
      ((b - 0xC0) * 64 + (rest.headD 0 - 0x80)) :: utf8Decode (rest.drop 1)
    else if b < 0xF0 then
      ((b - 0xE0) * 4096 + (rest.headD 0 - 0x80) * 64
        + ((rest.drop 1).headD 0 - 0x80)) :: utf8Decode (rest.drop 2)
    else
      ((b - 0xF0) * 262144 + (rest.headD 0 - 0x80) * 4096
        + ((rest.drop 1).headD 0 - 0x80) * 64
        + ((rest.drop 2).headD 0 - 0x80)) :: utf8Decode (rest.drop 3)
termination_by l => l.length
decreasing_by all_goals (simp [List.length_drop]; try omega)

/-- `s.lengthUTF8`: the UTF-8 byte length including the null terminator. -/
def lengthUTF8 (s : Text) : Nat :=
  (utf8Encode s).length + 1

/-- `s.toUTF8()`: allocates a region of `lengthUTF8` bytes from the arena
and fills it with the encoding followed by the null terminator. -/
def toUTF8 (m : Machine) (s : Text) : Nat × Machine :=
  let bytes := utf8Encode s ++ [0]
  let p := allocate m bytes.length
  (p.1, copyLoop p.2 p.1 bytes 0)

/-- `IO.write(fd, data)` (src/assembly/wasa.ts lines 43-56). -/
def write (m : Machine) (fd : Descriptor) (data : List Nat) : Machine :=
  let data_buf_len := data.length
  let p1 := allocate m data_buf_len
  let data_buf := p1.1
  let m1 := copyLoop p1.2 data_buf data 0
  let p2 := allocate m1 (2 * usizeSize)
  let iov := p2.1
  let m2 := storeVecEntry p2.2 iov (data_buf, data_buf_len)
  let p3 := allocate m2 usizeSize
  let written_ptr := p3.1
  let m3 := (fd_write p3.2 fd iov 1 written_ptr).2
  free (free m3 written_ptr) data_buf

/-- `IO.writeStringLn(fd, s)` (src/assembly/wasa.ts lines 85-99). -/
def writeStringLn (m : Machine) (fd : Descriptor) (s : Text) : Machine :=
  let s_utf8_len := lengthUTF8 s - 1
  let p1 := toUTF8 m s
  let s_utf8 := p1.1
  let p2 := allocate p1.2 (4 * usizeSize)
  let iov := p2.1
  let m1 := storeVecEntry p2.2 iov (s_utf8, s_utf8_len)
  let p3 := allocate m1 1
  let lf := p3.1
  let m2 := store8 p3.2 lf 0 10
  let m3 := storeVecEntry m2 iov (lf, 1)
  let p4 := allocate m3 usizeSize
  let written_ptr := p4.1
  let m4 := (fd_write p4.2 fd iov 2 written_ptr).2
  free (free m4 written_ptr) s_utf8

/-- `IO.writeString(fd, s, newline)` (src/assembly/wasa.ts lines 64-78). -/
def writeString (m : Machine) (fd : Descriptor) (s : Text) (newline : Bool) :
    Machine :=
  if newline then writeStringLn m fd s
  else
    let s_utf8_len := lengthUTF8 s - 1
    let p1 := toUTF8 m s
    let s_utf8 := p1.1
    let p2 := allocate p1.2 (2 * usizeSize)
    let iov := p2.1
    let m1 := storeVecEntry p2.2 iov (s_utf8, s_utf8_len)
    let p3 := allocate m1 usizeSize
    let written_ptr := p3.1
    let m2 := (fd_write p3.2 fd iov 1 written_ptr).2
    free (free m2 written_ptr) s_utf8

/-- `IO.read(fd, data, chunk_size)` (src/assembly/wasa.ts lines 107-128).
The middle component is the final contents of the caller's (mutable)
`data` array; the first is the returned `Array<u8> | null`. -/
def read (m : Machine) (fd : Descriptor) (data : List Nat) (chunk_size : Nat) :
    Option (List Nat) × List Nat × Machine :=
  let data_part_len := chunk_size
  let p1 := allocate m data_part_len
  let data_part := p1.1
  let p2 := allocate p1.2 (2 * usizeSize)
  let iov := p2.1
  let m1 := storeVecEntry p2.2 iov (data_part, data_part_len)
  let p3 := allocate m1 usizeSize
  let read_ptr := p3.1
  let m2 := (fd_read p3.2 fd iov 1 read_ptr).2
  let rd := loadWord m2 read_ptr
  let data2 := if rd > 0 then pushLoop m2 data_part 0 rd data else data
  let m3 := free (free m2 read_ptr) data_part
  if rd ≤ 0 then (none, data2, m3) else (some data2, data2, m3)

/-- The `for (;;)` loop of `IO.readAll` (src/assembly/wasa.ts lines
144-155): returns the machine after the loop, the final contents of the
caller's `data` array, and the final value of the local `read`. -/
def readAllLoop (fd : Descriptor) (iov read_ptr data_part : Nat)
    (data : List Nat) (rd : Nat) (m : Machine) : Machine × List Nat × Nat :=
  if h1 : (fd_read m fd iov 1 read_ptr).1 ≠ 0 then
    ((fd_read m fd iov 1 read_ptr).2, data, rd)
  else
    if h2 : loadWord (fd_read m fd iov 1 read_ptr).2 read_ptr ≤ 0 then
      ((fd_read m fd iov 1 read_ptr).2, data,
       loadWord (fd_read m fd iov 1 read_ptr).2 read_ptr)
    else
      readAllLoop fd iov read_ptr data_part
        (pushLoop (fd_read m fd iov 1 read_ptr).2 data_part 0
          (loadWord (fd_read m fd iov 1 read_ptr).2 read_ptr) data)
        (loadWord (fd_read m fd iov 1 read_ptr).2 read_ptr)
        (fd_read m fd iov 1 read_ptr).2
termination_by m.host.length
decreasing_by
  rcases hm : m.host with _ | ⟨r, rest⟩
  · exfalso
    simp [fd_read, hm, loadWord, storeWord, assocGet] at h2
  · simp only [fd_read, hm]
    split <;> simp [storeWord, writeBuf]

/-- `IO.readAll(fd, data, chunk_size)` (src/assembly/wasa.ts lines
136-163), with the same result convention as `read`. -/
def readAll (m : Machine) (fd : Descriptor) (data : List Nat)
    (chunk_size : Nat) : Option (List Nat) × List Nat × Machine :=
  let data_part_len := chunk_size
  let p1 := allocate m data_part_len
  let data_part := p1.1
  let p2 := allocate p1.2 (2 * usizeSize)
  let iov := p2.1
  let m1 := storeVecEntry p2.2 iov (data_part, data_part_len)
  let p3 := allocate m1 usizeSize
  let read_ptr := p3.1
  let t := readAllLoop fd iov read_ptr data_part data 0 p3.2
  let m2 := free (free t.1 read_ptr) data_part
  if t.2.2 < 0 then (none, t.2.1, m2) else (some t.2.1, t.2.1, m2)

/-- `String.fromUTF8(buf, len)`. -/
def fromUTF8 (m : Machine) (buf len : Nat) : Text :=
  utf8Decode ((heapGet m.heap buf).take len)

/-- `IO.readString(fd, chunk_size)` (src/assembly/wasa.ts lines 170-185).
Note the source calls `IO.readAll(fd)` with its default arguments,
ignoring `chunk_size`. -/
def readString (m : Machine) (fd : Descriptor) (chunk_size : Nat) :
    Option Text × Machine :=
  let t := readAll m fd [] 4096
  match t.1 with
  | none => (none, t.2.2)
  | some s_utf8 =>
    let s_utf8_len := s_utf8.length
    let p := allocate t.2.2 s_utf8_len
    let s_utf8_buf := p.1
    let m1 := copyLoop p.2 s_utf8_buf s_utf8 0
    let s := fromUTF8 m1 s_utf8_buf s_utf8.length
    let m2 := free m1 s_utf8_buf
    (some s, m2)

namespace Console

/-- `Console.write(s, newline)` (src/assembly/wasa.ts lines 195-197). -/
def write (m : Machine) (s : Text) (newline : Bool) : Machine :=
  Wasa.writeString m 1 s newline

/-- The default value of the `newline` parameter of `Console.write`. -/
def writeNewlineDefault : Bool := true

/-- `Console.write(s)` with `newline` left to its default. -/
def writeDefault (m : Machine) (s : Text) : Machine :=
  write m s writeNewlineDefault

/-- `Console.log(s)` (src/assembly/wasa.ts lines 209-211): calls
`this.write(s)`, leaving `newline` to its default. -/
def log (m : Machine) (s : Text) : Machine :=
  writeDefault m s

/-- `Console.error(s, newline)` (src/assembly/wasa.ts lines 218-220). -/
def error (m : Machine) (s : Text) (newline : Bool) : Machine :=
  Wasa.writeString m 2 s newline

/-- The default value of the `newline` parameter of `Console.error`. -/
def errorNewlineDefault : Bool := true

/-- `Console.error(s)` with `newline` left to its default. -/
def errorDefault (m : Machine) (s : Text) : Machine :=
  error m s errorNewlineDefault

end Console

/-- The bytes delivered to streams by the `fd_write` calls issued between
two machine states, in order. -/
def emitted (m mf : Machine) : List Nat :=
  ((mf.calls.drop m.calls.length).map (fun c => c.regions.flatten)).flatten

/-- How often region `id` is freed in an event trace. -/
def countFree (evs : List MemEvent) (id : Nat) : Nat :=
  (evs.filter (fun e =>
    match e with
    | MemEvent.free j => j == id
    | _ => false)).length

/-- A host queue on which every `fd_read` succeeds, delivers at least one
byte, and fits the destination capacity `cap`. -/
def goodHost (cap : Nat) (host : List ReadResult) : Prop :=
  ∀ r ∈ host, r.status = 0 ∧ r.bytes ≠ [] ∧ r.bytes.length ≤ cap

instance (cap : Nat) (host : List ReadResult) : Decidable (goodHost cap host) := by
  unfold goodHost; infer_instance

/-- All bytes a host queue delivers, in order. -/
def joinBytes (host : List ReadResult) : List Nat :=
  (host.map (fun r => r.bytes)).flatten

/-- The host queue a descriptor backed by the byte stream `bytes` produces
for a reader using capacity `c`: successive successful reads of `c` bytes,
the last one partial. -/
def chunkStream (c : Nat) (bytes : List Nat) : List ReadResult :=
  if bytes = [] ∨ c = 0 then []
  else ⟨0, bytes.take c⟩ :: chunkStream c (bytes.drop c)
termination_by bytes.length
decreasing_by
  rename_i h
  simp only [not_or] at h
  have : 0 < c := Nat.pos_of_ne_zero h.2
  have : 0 < bytes.length := List.length_pos.mpr h.1
  simp [List.length_drop]; omega

/-- An initial machine over a given host queue. -/
def initMachine (host : List ReadResult) : Machine :=
  ⟨0, [], [], [], [], [], 0, host⟩

/-! ### Basic lemmas about the machine primitives -/

@[simp] theorem assocGet_cons_self {α : Type} (d : α) (id : Nat) (x : α)
    (h : List (Nat × α)) : assocGet d ((id, x) :: h) id = x := by
  simp [assocGet]

theorem assocGet_cons_ne {α : Type} (d : α) (j : Nat) (x : α)
    (h : List (Nat × α)) (id : Nat) (hne : j ≠ id) :
    assocGet d ((j, x) :: h) id = assocGet d h id := by
  simp [assocGet, hne]

theorem heapGet_cons (a : Nat) (x : List Nat) (h : List (Nat × List Nat))
    (b : Nat) : heapGet ((a, x) :: h) b = if a = b then x else heapGet h b := by
  simp [heapGet, assocGet]

/-- The copy loop only changes the heap. -/
theorem copyLoop_shape : ∀ (data : List Nat) (m : Machine) (buf i : Nat),
    ∃ hp, copyLoop m buf data i = { m with heap := hp } := by
  intro data
  induction data with
  | nil => exact fun m buf i => ⟨m.heap, rfl⟩
  | cons b rest ih =>
    intro m buf i
    obtain ⟨hp, eh⟩ := ih (store8 m buf i b) buf (i + 1)
    exact ⟨hp, eh⟩

@[simp] theorem copyLoop_next (data : List Nat) (m : Machine) (buf i : Nat) :
    (copyLoop m buf data i).next = m.next := by
  obtain ⟨hp, eh⟩ := copyLoop_shape data m buf i; rw [eh]

@[simp] theorem copyLoop_vecs (data : List Nat) (m : Machine) (buf i : Nat) :
    (copyLoop m buf data i).vecs = m.vecs := by
  obtain ⟨hp, eh⟩ := copyLoop_shape data m buf i; rw [eh]

@[simp] theorem copyLoop_cells (data : List Nat) (m : Machine) (buf i : Nat) :
    (copyLoop m buf data i).cells = m.cells := by
  obtain ⟨hp, eh⟩ := copyLoop_shape data m buf i; rw [eh]

@[simp] theorem copyLoop_events (data : List Nat) (m : Machine) (buf i : Nat) :
    (copyLoop m buf data i).events = m.events := by
  obtain ⟨hp, eh⟩ := copyLoop_shape data m buf i; rw [eh]

@[simp] theorem copyLoop_calls (data : List Nat) (m : Machine) (buf i : Nat) :
    (copyLoop m buf data i).calls = m.calls := by
  obtain ⟨hp, eh⟩ := copyLoop_shape data m buf i; rw [eh]

@[simp] theorem copyLoop_reads (data : List Nat) (m : Machine) (buf i : Nat) :
    (copyLoop m buf data i).reads = m.reads := by
  obtain ⟨hp, eh⟩ := copyLoop_shape data m buf i; rw [eh]

@[simp] theorem copyLoop_host (data : List Nat) (m : Machine) (buf i : Nat) :
    (copyLoop m buf data i).host = m.host := by
  obtain ⟨hp, eh⟩ := copyLoop_shape data m buf i; rw [eh]

/-- Contents of the destination region after the copy loop. -/
theorem copyLoop_heapGet :
    ∀ (data : List Nat) (m : Machine) (buf i : Nat),
      i + data.length ≤ (heapGet m.heap buf).length →
      heapGet (copyLoop m buf data i).heap buf =
        (heapGet m.heap buf).take i ++ data ++
          (heapGet m.heap buf).drop (i + data.length) := by
  intro data
  induction data with
  | nil =>
    intro m buf i hle
    simp [copyLoop]
  | cons b rest ih =>
    intro m buf i hle
    simp only [List.length_cons] at hle
    have hlen : i < (heapGet m.heap buf).length := by omega
    have h8 : heapGet (store8 m buf i b).heap buf
        = (heapGet m.heap buf).set i b := by
      simp [store8, heapGet]
    have hle2 : (i + 1) + rest.length
        ≤ (heapGet (store8 m buf i b).heap buf).length := by
      rw [h8]; simp; omega
    have key := ih (store8 m buf i b) buf (i + 1) hle2
    rw [h8] at key
    show heapGet (copyLoop (store8 m buf i b) buf rest (i + 1)).heap buf = _
    rw [key, List.set_eq_take_cons_drop b hlen]
    have hT : ((heapGet m.heap buf).take i).length = i := by
      simp; omega
    rw [List.take_append_eq_append_take, List.drop_append_eq_append_drop, hT]
    rw [List.take_of_length_le (by rw [hT]; omega)]
    rw [List.drop_of_length_le
      (show ((heapGet m.heap buf).take i).length ≤ i + 1 + rest.length by
        rw [hT]; omega)]
    have e1 : i + 1 - i = 1 := by omega
    have e2 : i + 1 + rest.length - i = rest.length + 1 := by omega
    rw [e1, e2]
    have e3 : (b :: (heapGet m.heap buf).drop (i + 1)).take 1 = [b] := rfl
    have e4 : (b :: (heapGet m.heap buf).drop (i + 1)).drop (rest.length + 1)
        = ((heapGet m.heap buf).drop (i + 1)).drop rest.length := rfl
    rw [e3, e4, List.drop_drop]
    have e5 : i + 1 + rest.length = i + (rest.length + 1) := by omega
    rw [e5]
    simp [List.append_assoc]

@[simp] theorem loadWord_storeWord (m : Machine) (p v : Nat) :
    loadWord (storeWord m p v) p = v := by
  simp [loadWord, storeWord]

/-- The push loop appends the `n - i` bytes of the source region starting
at offset `i`. -/
theorem pushLoop_spec :
    ∀ (d : Nat) (m : Machine) (buf n i : Nat) (data : List Nat),
      i + d = n → n ≤ (heapGet m.heap buf).length →
      pushLoop m buf i n data
        = data ++ ((heapGet m.heap buf).drop i).take d := by
  intro d
  induction d with
  | zero =>
    intro m buf n i data hin hlen
    rw [pushLoop]
    simp [show ¬i < n by omega]
  | succ d ih =>
    intro m buf n i data hin hlen
    have hlt : i < n := by omega
    have hl : i < (heapGet m.heap buf).length := by omega
    rw [pushLoop]
    simp only [if_pos hlt]
    rw [ih m buf n (i + 1) (data ++ [load8 m buf i]) (by omega) hlen]
    rw [List.drop_eq_getElem_cons hl]
    simp [load8, List.getD_eq_getElem?_getD, List.getElem?_eq_getElem hl]
    rw [List.drop_eq_getElem_cons hl, List.take_succ_cons]

/-- `fd_read` at an exhausted host: end-of-stream. -/
theorem fd_read_nil (m : Machine) (fd iov iovcnt readPtr : Nat)
    (h : m.host = []) :
    fd_read m fd iov iovcnt readPtr
      = (0, storeWord { m with reads := m.reads + 1 } readPtr 0) := by
  simp [fd_read, h]

/-- `fd_read` consuming a failure response. -/
theorem fd_read_fail (m : Machine) (fd iov iovcnt readPtr : Nat)
    (r : ReadResult) (rest : List ReadResult)
    (hh : m.host = r :: rest) (hs : r.status ≠ 0) :
    fd_read m fd iov iovcnt readPtr
      = (r.status, { m with host := rest, reads := m.reads + 1 }) := by
  simp [fd_read, hh, hs]

/-- `fd_read` consuming a success response. -/
theorem fd_read_succ (m : Machine) (fd iov iovcnt readPtr : Nat)
    (r : ReadResult) (rest : List ReadResult)
    (hh : m.host = r :: rest) (hs : r.status = 0) :
    fd_read m fd iov iovcnt readPtr
      = (0, storeWord
          (writeBuf { m with host := rest, reads := m.reads + 1 }
            (((assocGet [] m.vecs iov).take iovcnt).headD (0, 0)).1
            (r.bytes.take
              (((assocGet [] m.vecs iov).take iovcnt).headD (0, 0)).2))
          readPtr
          (r.bytes.take
            (((assocGet [] m.vecs iov).take iovcnt).headD (0, 0)).2).length) := by
  simp [fd_read, hh, hs]

/-- One successful, non-empty iteration of the `readAll` loop. -/
theorem readAllLoop_step_succ (fd iov rp dp cap : Nat) (data : List Nat)
    (rd : Nat) (m : Machine) (r : ReadResult) (rest : List ReadResult)
    (hh : m.host = r :: rest) (hs : r.status = 0)
    (hv : assocGet [] m.vecs iov = [(dp, cap)])
    (hn : r.bytes.take cap ≠ []) :
    readAllLoop fd iov rp dp data rd m
      = readAllLoop fd iov rp dp (data ++ r.bytes.take cap)
          (r.bytes.take cap).length
          (storeWord (writeBuf { m with host := rest, reads := m.reads + 1 }
              dp (r.bytes.take cap)) rp (r.bytes.take cap).length) := by
  have hfr := fd_read_succ m fd iov 1 rp r rest hh hs
  simp only [hv, List.take_succ_cons, List.take_nil, List.headD_cons] at hfr
  have hM : heapGet (storeWord (writeBuf
        { m with host := rest, reads := m.reads + 1 } dp (r.bytes.take cap))
        rp (r.bytes.take cap).length).heap dp
      = r.bytes.take cap ++ (heapGet m.heap dp).drop (r.bytes.take cap).length := by
    simp [storeWord, writeBuf, heapGet]
  have hpush := pushLoop_spec (r.bytes.take cap).length
    (storeWord (writeBuf { m with host := rest, reads := m.reads + 1 }
        dp (r.bytes.take cap)) rp (r.bytes.take cap).length)
    dp (r.bytes.take cap).length 0 data (by omega) (by rw [hM]; simp)
  rw [hM] at hpush
  simp only [List.drop_zero, List.take_left] at hpush
  have hpos : 0 < (r.bytes.take cap).length := List.length_pos.mpr hn
  rw [readAllLoop, hfr]
  simp only [List.length_take] at hpush hpos
  simp [hpush, show ¬cap ⊓ r.bytes.length ≤ 0 by omega]

/-- The `readAll` loop at an exhausted host: final iteration reads zero
bytes and exits. -/
theorem readAllLoop_step_nil (fd iov rp dp : Nat) (data : List Nat)
    (rd : Nat) (m : Machine) (hh : m.host = []) :
    readAllLoop fd iov rp dp data rd m
      = (storeWord { m with reads := m.reads + 1 } rp 0, data, 0) := by
  rw [readAllLoop, fd_read_nil m fd iov 1 rp hh]
  simp

/-- The `readAll` loop consuming a zero-byte success response: exits. -/
theorem readAllLoop_step_zero (fd iov rp dp cap : Nat) (data : List Nat)
    (rd : Nat) (m : Machine) (r : ReadResult) (rest : List ReadResult)
    (hh : m.host = r :: rest) (hs : r.status = 0)
    (hv : assocGet [] m.vecs iov = [(dp, cap)])
    (hz : r.bytes.take cap = []) :
    readAllLoop fd iov rp dp data rd m
      = (storeWord (writeBuf { m with host := rest, reads := m.reads + 1 }
            dp (r.bytes.take cap)) rp (r.bytes.take cap).length, data, 0) := by
  have hfr := fd_read_succ m fd iov 1 rp r rest hh hs
  simp only [hv, List.take_succ_cons, List.take_nil, List.headD_cons] at hfr
  rw [readAllLoop, hfr]
  simp [hz]

/-- The `readAll` loop consuming a failure response: exits, pushing
nothing. -/
theorem readAllLoop_step_fail (fd iov rp dp : Nat) (data : List Nat)
    (rd : Nat) (m : Machine) (r : ReadResult) (rest : List ReadResult)
    (hh : m.host = r :: rest) (hs : r.status ≠ 0) :
    readAllLoop fd iov rp dp data rd m
      = ({ m with host := rest, reads := m.reads + 1 }, data, rd) := by
  rw [readAllLoop, fd_read_fail m fd iov 1 rp r rest hh hs]
  simp [hs]

/-- The `readAll` loop only changes the heap, the word cells, the read
counter and the pending host queue. -/
theorem readAllLoop_shape :
    ∀ (host : List ReadResult) (m : Machine) (fd iov rp dp : Nat)
      (data : List Nat) (rd : Nat), m.host = host →
      ∃ hp cl rc h2,
        (readAllLoop fd iov rp dp data rd m).1
          = { m with heap := hp, cells := cl, reads := rc, host := h2 } := by
  intro host
  induction host with
  | nil =>
    intro m fd iov rp dp data rd hh
    rw [readAllLoop_step_nil fd iov rp dp data rd m hh]
    exact ⟨_, _, _, _, rfl⟩
  | cons r rest ih =>
    intro m fd iov rp dp data rd hh
    by_cases hs : r.status = 0
    · have hfr := fd_read_succ m fd iov 1 rp r rest hh hs
      rw [readAllLoop, hfr]
      dsimp only
      split
      · exact ⟨_, _, _, _, rfl⟩
      · split
        · exact ⟨_, _, _, _, rfl⟩
        · have hhost : (storeWord (writeBuf
              { m with host := rest, reads := m.reads + 1 }
              (((assocGet [] m.vecs iov).take 1).headD (0, 0)).1
              (r.bytes.take (((assocGet [] m.vecs iov).take 1).headD (0, 0)).2))
              rp (r.bytes.take
                (((assocGet [] m.vecs iov).take 1).headD (0, 0)).2).length).host
              = rest := by
            simp [storeWord, writeBuf]
          obtain ⟨hp, cl, rc, h2, hres⟩ := ih _ fd iov rp dp _ _ hhost
          exact ⟨hp, cl, rc, h2, hres⟩
    · rw [readAllLoop_step_fail fd iov rp dp data rd m r rest hh hs]
      exact ⟨_, _, _, _, rfl⟩

@[simp] theorem readAllLoop_events (fd iov rp dp : Nat) (data : List Nat)
    (rd : Nat) (m : Machine) :
    (readAllLoop fd iov rp dp data rd m).1.events = m.events := by
  obtain ⟨hp, cl, rc, h2, h⟩ :=
    readAllLoop_shape m.host m fd iov rp dp data rd rfl
  rw [h]

@[simp] theorem readAllLoop_next (fd iov rp dp : Nat) (data : List Nat)
    (rd : Nat) (m : Machine) :
    (readAllLoop fd iov rp dp data rd m).1.next = m.next := by
  obtain ⟨hp, cl, rc, h2, h⟩ :=
    readAllLoop_shape m.host m fd iov rp dp data rd rfl
  rw [h]

@[simp] theorem readAllLoop_vecs (fd iov rp dp : Nat) (data : List Nat)
    (rd : Nat) (m : Machine) :
    (readAllLoop fd iov rp dp data rd m).1.vecs = m.vecs := by
  obtain ⟨hp, cl, rc, h2, h⟩ :=
    readAllLoop_shape m.host m fd iov rp dp data rd rfl
  rw [h]

@[simp] theorem readAllLoop_calls (fd iov rp dp : Nat) (data : List Nat)
    (rd : Nat) (m : Machine) :
    (readAllLoop fd iov rp dp data rd m).1.calls = m.calls := by
  obtain ⟨hp, cl, rc, h2, h⟩ :=
    readAllLoop_shape m.host m fd iov rp dp data rd rfl
  rw [h]

/-- Running the `readAll` loop over a host on which every read succeeds
with at least one byte accumulates all delivered bytes. -/
theorem readAllLoop_run_good :
    ∀ (host : List ReadResult) (m : Machine) (fd iov rp dp cap : Nat)
      (data : List Nat) (rd : Nat),
      m.host = host → assocGet [] m.vecs iov = [(dp, cap)] →
      goodHost cap host →
      (readAllLoop fd iov rp dp data rd m).2.1 = data ++ joinBytes host := by
  intro host
  induction host with
  | nil =>
    intro m fd iov rp dp cap data rd hh hv hg
    rw [readAllLoop_step_nil fd iov rp dp data rd m hh]
    simp [joinBytes]
  | cons r rest ih =>
    intro m fd iov rp dp cap data rd hh hv hg
    obtain ⟨hs, hne, hlen⟩ := hg r (List.mem_cons_self r rest)
    have htake : r.bytes.take cap = r.bytes := List.take_of_length_le hlen
    rw [readAllLoop_step_succ fd iov rp dp cap data rd m r rest hh hs hv
      (by rw [htake]; exact hne)]
    rw [ih _ fd iov rp dp cap _ _ (by simp [storeWord, writeBuf])
      (by simp [storeWord, writeBuf, hv])
      (fun q hq => hg q (List.mem_cons_of_mem r hq))]
    simp [joinBytes, htake, List.append_assoc]

/-- Running the `readAll` loop over a host that fails after a good prefix
accumulates exactly the prefix bytes: nothing from the failed call is
appended. -/
theorem readAllLoop_run_fail :
    ∀ (pre : List ReadResult) (bad : ReadResult) (after : List ReadResult)
      (m : Machine) (fd iov rp dp cap : Nat) (data : List Nat) (rd : Nat),
      m.host = pre ++ bad :: after → assocGet [] m.vecs iov = [(dp, cap)] →
      goodHost cap pre → bad.status ≠ 0 →
      (readAllLoop fd iov rp dp data rd m).2.1 = data ++ joinBytes pre := by
  intro pre
  induction pre with
  | nil =>
    intro bad after m fd iov rp dp cap data rd hh hv hg hb
    rw [readAllLoop_step_fail fd iov rp dp data rd m bad after
      (by simpa using hh) hb]
    simp [joinBytes]
  | cons r rest ih =>
    intro bad after m fd iov rp dp cap data rd hh hv hg hb
    obtain ⟨hs, hne, hlen⟩ := hg r (List.mem_cons_self r rest)
    have htake : r.bytes.take cap = r.bytes := List.take_of_length_le hlen
    rw [readAllLoop_step_succ fd iov rp dp cap data rd m r (rest ++ bad :: after)
      (by simpa using hh) hs hv (by rw [htake]; exact hne)]
    rw [ih bad after _ fd iov rp dp cap _ _ (by simp [storeWord, writeBuf])
      (by simp [storeWord, writeBuf, hv])
      (fun q hq => hg q (List.mem_cons_of_mem r hq)) hb]
    simp [joinBytes, htake, List.append_assoc]

/-- `readAll` always returns its accumulated array, never `null`: the
`read < 0` test on the unsigned count can never hold. -/
theorem readAll_eq_some (m : Machine) (fd : Descriptor) (data : List Nat)
    (c : Nat) :
    (readAll m fd data c).1 = some ((readAll m fd data c).2.1) := by
  simp [readAll, Nat.not_lt_zero]

/-- Allocator events and other frame facts of one `readAll` invocation. -/
theorem readAll_frame (m : Machine) (fd : Descriptor) (data : List Nat)
    (c : Nat) :
    (readAll m fd data c).2.2.events
        = m.events ++ [MemEvent.alloc m.next c, MemEvent.alloc (m.next + 1) 8,
            MemEvent.alloc (m.next + 2) 4, MemEvent.free (m.next + 2),
            MemEvent.free m.next]
      ∧ (readAll m fd data c).2.2.next = m.next + 3
      ∧ (readAll m fd data c).2.2.calls = m.calls := by
  refine ⟨?_, ?_, ?_⟩ <;>
    simp [readAll, allocate, storeVecEntry, free, usizeSize, Nat.not_lt_zero]

/-- `readAll` over a host on which every read succeeds with at least one
byte within capacity returns the caller's array extended by all delivered
bytes. -/
theorem readAll_run_good (m : Machine) (fd : Descriptor) (data : List Nat)
    (c : Nat) (host : List ReadResult) (hh : m.host = host)
    (hg : goodHost c host) :
    (readAll m fd data c).2.1 = data ++ joinBytes host := by
  simp only [readAll, allocate, storeVecEntry, usizeSize]
  rw [readAllLoop_run_good host _ fd (m.next + 1) (m.next + 2) m.next c data 0
    (by simp [hh]) (by simp [assocGet]) hg]
  simp [Nat.not_lt_zero]

/-- `readAll` over a host that fails after a good prefix returns the
caller's array extended by exactly the prefix bytes. -/
theorem readAll_run_fail (m : Machine) (fd : Descriptor) (data : List Nat)
    (c : Nat) (pre : List ReadResult) (bad : ReadResult)
    (after : List ReadResult) (hh : m.host = pre ++ bad :: after)
    (hg : goodHost c pre) (hb : bad.status ≠ 0) :
    (readAll m fd data c).2.1 = data ++ joinBytes pre := by
  simp only [readAll, allocate, storeVecEntry, usizeSize]
  rw [readAllLoop_run_fail pre bad after _ fd (m.next + 1) (m.next + 2) m.next
    c data 0 (by simp [hh]) (by simp [assocGet]) hg hb]
  simp [Nat.not_lt_zero]

/-- The push loop right after a successful `fd_read` into the same buffer
appends exactly the bytes the host placed. -/
theorem pushLoop_after_read (m : Machine) (buf rp len : Nat)
    (placed data : List Nat) (hlen : len = placed.length) :
    pushLoop (storeWord (writeBuf m buf placed) rp len) buf 0 len data
      = data ++ placed := by
  subst hlen
  have hM : heapGet (storeWord (writeBuf m buf placed) rp placed.length).heap
      buf = placed ++ (heapGet m.heap buf).drop placed.length := by
    simp [storeWord, writeBuf, heapGet]
  have h := pushLoop_spec placed.length
    (storeWord (writeBuf m buf placed) rp placed.length) buf placed.length 0
    data (by omega) (by rw [hM]; simp)
  rw [hM] at h
  simpa using h

/-- `read` at end-of-stream (exhausted host): no-data sentinel, the
caller's array untouched. -/
theorem read_run_eof (m : Machine) (fd : Descriptor) (data : List Nat)
    (c : Nat) (hh : m.host = []) :
    (read m fd data c).1 = none ∧ (read m fd data c).2.1 = data := by
  refine ⟨?_, ?_⟩ <;>
  · simp only [read, allocate, storeVecEntry, usizeSize]
    rw [fd_read_nil _ fd (m.next + 1) 1 (m.next + 2) (by simp [hh])]
    simp [loadWord, assocGet]

/-- `read` consuming a zero-byte success response: no-data sentinel, the
caller's array untouched. -/
theorem read_run_zero (m : Machine) (fd : Descriptor) (data : List Nat)
    (c : Nat) (r : ReadResult) (rest : List ReadResult)
    (hh : m.host = r :: rest) (hs : r.status = 0)
    (hz : r.bytes.take c = []) :
    (read m fd data c).1 = none ∧ (read m fd data c).2.1 = data := by
  refine ⟨?_, ?_⟩ <;>
  · simp only [read, allocate, storeVecEntry, usizeSize]
    rw [fd_read_succ _ fd (m.next + 1) 1 (m.next + 2) r rest (by simp [hh]) hs]
    simp [loadWord, assocGet, hz]

/-- `read` consuming a success response with a positive byte count:
appends the placed bytes to the caller's array and returns it. -/
theorem read_run_pos (m : Machine) (fd : Descriptor) (data : List Nat)
    (c : Nat) (r : ReadResult) (rest : List ReadResult)
    (hh : m.host = r :: rest) (hs : r.status = 0)
    (hp : r.bytes.take c ≠ []) :
    (read m fd data c).1 = some (data ++ r.bytes.take c)
      ∧ (read m fd data c).2.1 = data ++ r.bytes.take c := by
  have hpos : 0 < (r.bytes.take c).length := List.length_pos.mpr hp
  have hpos2 : 0 < c ⊓ r.bytes.length := by
    simpa [List.length_take] using hpos
  refine ⟨?_, ?_⟩ <;>
  · simp only [read, allocate, storeVecEntry, usizeSize]
    rw [fd_read_succ _ fd (m.next + 1) 1 (m.next + 2) r rest (by simp [hh]) hs]
    simp [loadWord, assocGet, show ¬c ⊓ r.bytes.length ≤ 0 by omega, hpos2]
    rw [pushLoop_after_read]
    simp [List.length_take]

/-- Full characterisation of one `IO.write` invocation: the single
gather-write call issued, the allocator events, and the untouched state. -/
theorem write_spec (m : Machine) (fd : Descriptor) (data : List Nat) :
    (write m fd data).calls
        = m.calls ++ [⟨fd, [(m.next, data.length)], [data]⟩]
      ∧ (write m fd data).events
        = m.events ++ [MemEvent.alloc m.next data.length,
            MemEvent.alloc (m.next + 1) 8, MemEvent.alloc (m.next + 2) 4,
            MemEvent.free (m.next + 2), MemEvent.free m.next]
      ∧ (write m fd data).next = m.next + 3
      ∧ (write m fd data).reads = m.reads
      ∧ (write m fd data).host = m.host := by
  have d2 : m.next + 1 + 1 ≠ m.next := by omega
  have d3 : m.next + 1 + 1 + 1 ≠ m.next := by omega
  have d31 : m.next + 1 + 1 + 1 ≠ m.next + 1 := by omega
  refine ⟨?_, ?_, ?_, ?_, ?_⟩ <;>
    simp [write, allocate, storeVecEntry, usizeSize, fd_write, free,
      storeWord, heapGet_cons, assocGet, d2, d3, d31, copyLoop_heapGet]

/-- Full characterisation of `IO.writeString` with `newline = false`. -/
theorem writeString_spec (m : Machine) (fd : Descriptor) (s : Text) :
    (writeString m fd s false).calls
        = m.calls ++ [⟨fd, [(m.next, (utf8Encode s).length)], [utf8Encode s]⟩]
      ∧ (writeString m fd s false).events
        = m.events ++ [MemEvent.alloc m.next ((utf8Encode s).length + 1),
            MemEvent.alloc (m.next + 1) 8, MemEvent.alloc (m.next + 2) 4,
            MemEvent.free (m.next + 2), MemEvent.free m.next]
      ∧ (writeString m fd s false).next = m.next + 3
      ∧ (writeString m fd s false).reads = m.reads
      ∧ (writeString m fd s false).host = m.host := by
  have d2 : m.next + 1 + 1 ≠ m.next := by omega
  have d3 : m.next + 1 + 1 + 1 ≠ m.next := by omega
  have d31 : m.next + 1 + 1 + 1 ≠ m.next + 1 := by omega
  refine ⟨?_, ?_, ?_, ?_, ?_⟩ <;>
    simp [writeString, toUTF8, lengthUTF8, allocate, storeVecEntry, usizeSize,
      fd_write, free, storeWord, heapGet_cons, assocGet, d2, d3, d31,
      copyLoop_heapGet]

/-- Full characterisation of one `IO.writeStringLn` invocation: a single
gather-write call with the text region followed by the one-byte newline
region. -/
theorem writeStringLn_spec (m : Machine) (fd : Descriptor) (s : Text) :
    (writeStringLn m fd s).calls
        = m.calls ++ [⟨fd, [(m.next, (utf8Encode s).length), (m.next + 2, 1)],
            [utf8Encode s, [10]]⟩]
      ∧ (writeStringLn m fd s).events
        = m.events ++ [MemEvent.alloc m.next ((utf8Encode s).length + 1),
            MemEvent.alloc (m.next + 1) 16, MemEvent.alloc (m.next + 2) 1,
            MemEvent.alloc (m.next + 3) 4, MemEvent.free (m.next + 3),
            MemEvent.free m.next]
      ∧ (writeStringLn m fd s).next = m.next + 4
      ∧ (writeStringLn m fd s).reads = m.reads
      ∧ (writeStringLn m fd s).host = m.host := by
  have d2 : m.next + 1 + 1 ≠ m.next := by omega
  have d3 : m.next + 1 + 1 + 1 ≠ m.next := by omega
  have d31 : m.next + 1 + 1 + 1 ≠ m.next + 1 := by omega
  have d4 : m.next + 1 + 1 + 1 + 1 ≠ m.next := by omega
  have d41 : m.next + 1 + 1 + 1 + 1 ≠ m.next + 1 := by omega
  have d42 : m.next + 1 + 1 + 1 + 1 ≠ m.next + 1 + 1 := by omega
  refine ⟨?_, ?_, ?_, ?_, ?_⟩ <;>
    simp [writeStringLn, toUTF8, lengthUTF8, allocate, storeVecEntry,
      usizeSize, fd_write, free, storeWord, store8, heapGet_cons, assocGet,
      d2, d3, d31, d4, d41, d42, copyLoop_heapGet]

/-- Allocator events and other frame facts of one `read` invocation, on
every path. -/
theorem read_frame (m : Machine) (fd : Descriptor) (data : List Nat)
    (c : Nat) :
    (read m fd data c).2.2.events
        = m.events ++ [MemEvent.alloc m.next c, MemEvent.alloc (m.next + 1) 8,
            MemEvent.alloc (m.next + 2) 4, MemEvent.free (m.next + 2),
            MemEvent.free m.next]
      ∧ (read m fd data c).2.2.reads = m.reads + 1
      ∧ (read m fd data c).2.2.calls = m.calls
      ∧ (read m fd data c).2.2.next = m.next + 3 := by
  rcases hh : m.host with _ | ⟨r, rest⟩
  · refine ⟨?_, ?_, ?_, ?_⟩ <;>
    · simp only [read, allocate, storeVecEntry, usizeSize]
      rw [fd_read_nil _ fd (m.next + 1) 1 (m.next + 2) (by simp [hh])]
      simp [free, storeWord, loadWord, assocGet]
  · by_cases hs : r.status = 0
    · refine ⟨?_, ?_, ?_, ?_⟩ <;>
      · simp only [read, allocate, storeVecEntry, usizeSize]
        rw [fd_read_succ _ fd (m.next + 1) 1 (m.next + 2) r rest
          (by simp [hh]) hs]
        split <;> simp [free, storeWord, writeBuf, loadWord, assocGet]
    · refine ⟨?_, ?_, ?_, ?_⟩ <;>
      · simp only [read, allocate, storeVecEntry, usizeSize]
        rw [fd_read_fail _ fd (m.next + 1) 1 (m.next + 2) r rest
          (by simp [hh]) hs]
        split <;> simp [free, storeWord, writeBuf, loadWord, assocGet]

/-- `readString` decodes whatever `readAll` (with its default arguments)
accumulated, and its allocator events. -/
theorem readString_spec (m : Machine) (fd : Descriptor) (c : Nat) :
    (readString m fd c).1
        = some (utf8Decode ((readAll m fd [] 4096).2.1))
      ∧ (readString m fd c).2.events
        = m.events ++ [MemEvent.alloc m.next 4096,
            MemEvent.alloc (m.next + 1) 8, MemEvent.alloc (m.next + 2) 4,
            MemEvent.free (m.next + 2), MemEvent.free m.next,
            MemEvent.alloc (m.next + 3) ((readAll m fd [] 4096).2.1).length,
            MemEvent.free (m.next + 3)] := by
  obtain ⟨hev, hnext, hcalls⟩ := readAll_frame m fd [] 4096
  have hsome := readAll_eq_some m fd [] 4096
  refine ⟨?_, ?_⟩ <;>
  · simp only [readString]
    rw [hsome]
    simp [allocate, free, fromUTF8, heapGet_cons, copyLoop_heapGet, hev,
      hnext, List.append_assoc]

/-- UTF-8 decoding undoes the encoding of one valid scalar value. -/
theorem utf8Decode_encodeChar_append (c : Nat) (l : List Nat)
    (hv : ValidCodePoint c) :
    utf8Decode (utf8EncodeChar c ++ l) = c :: utf8Decode l := by
  obtain ⟨hlt, hsur⟩ := hv
  by_cases h1 : c < 0x80
  · rw [show utf8EncodeChar c = [c] by simp [utf8EncodeChar, h1],
      List.cons_append, List.nil_append, utf8Decode, if_pos h1]
  · by_cases h2 : c < 0x800
    · have e1 : ¬0xC0 + c / 64 < 0x80 := by omega
      have e2 : 0xC0 + c / 64 < 0xE0 := by omega
      rw [show utf8EncodeChar c = [0xC0 + c / 64, 0x80 + c % 64] by
        simp [utf8EncodeChar, h1, h2]]
      rw [List.cons_append, List.cons_append, List.nil_append, utf8Decode,
        if_neg e1, if_pos e2]
      simp only [List.headD_cons, List.drop_succ_cons, List.drop_zero]
      exact congrArg (fun x => x :: utf8Decode l) (by omega)
    · by_cases h3 : c < 0x10000
      · have e1 : ¬0xE0 + c / 4096 < 0x80 := by omega
        have e2 : ¬0xE0 + c / 4096 < 0xE0 := by omega
        have e3 : 0xE0 + c / 4096 < 0xF0 := by
          have h4 : c / 4096 < 16 := by omega
          omega
        rw [show utf8EncodeChar c
            = [0xE0 + c / 4096, 0x80 + (c / 64) % 64, 0x80 + c % 64] by
          simp [utf8EncodeChar, h1, h2, h3]]
        rw [List.cons_append, List.cons_append, List.cons_append,
          List.nil_append, utf8Decode, if_neg e1, if_neg e2, if_pos e3]
        simp only [List.headD_cons, List.drop_succ_cons, List.drop_zero]
        exact congrArg (fun x => x :: utf8Decode l) (by omega)
      · have e1 : ¬0xF0 + c / 262144 < 0x80 := by omega
        have e2 : ¬0xF0 + c / 262144 < 0xE0 := by omega
        have e3 : ¬0xF0 + c / 262144 < 0xF0 := by omega
        rw [show utf8EncodeChar c
            = [0xF0 + c / 262144, 0x80 + (c / 4096) % 64,
               0x80 + (c / 64) % 64, 0x80 + c % 64] by
          simp [utf8EncodeChar, h1, h2, h3]]
        rw [List.cons_append, List.cons_append, List.cons_append,
          List.cons_append, List.nil_append, utf8Decode, if_neg e1,
          if_neg e2, if_neg e3]
        simp only [List.headD_cons, List.drop_succ_cons, List.drop_zero]
        exact congrArg (fun x => x :: utf8Decode l) (by omega)

/-- UTF-8 decoding undoes the encoding of a string of valid scalar
values. -/
theorem utf8Decode_encode (s : Text) (hv : ∀ c ∈ s, ValidCodePoint c) :
    utf8Decode (utf8Encode s) = s := by
  induction s with
  | nil => simp [utf8Encode, utf8Decode]
  | cons c cs ih =>
    have he : utf8Encode (c :: cs) = utf8EncodeChar c ++ utf8Encode cs := by
      simp [utf8Encode]
    rw [he, utf8Decode_encodeChar_append c _ (hv c (List.mem_cons_self c cs)),
      ih (fun q hq => hv q (List.mem_cons_of_mem c hq))]

/-- The host queue of a chunked stream is a good host. -/
theorem chunkStream_good :
    ∀ (n : Nat) (c : Nat) (bytes : List Nat), bytes.length ≤ n → 0 < c →
      goodHost c (chunkStream c bytes) := by
  intro n
  induction n with
  | zero =>
    intro c bytes hlen hc
    have : bytes = [] := by
      cases bytes
      · rfl
      · simp at hlen
    rw [chunkStream, if_pos (Or.inl this)]
    intro r hr
    simp at hr
  | succ n ih =>
    intro c bytes hlen hc
    by_cases hb : bytes = []
    · rw [chunkStream, if_pos (Or.inl hb)]
      intro r hr
      simp at hr
    · rw [chunkStream, if_neg (by simp [hb]; omega)]
      intro r hr
      rcases List.mem_cons.mp hr with he | ht
      · subst he
        have hpos : 0 < bytes.length := List.length_pos.mpr hb
        refine ⟨rfl, ?_, by simp⟩
        intro hnil
        rcases List.take_eq_nil_iff.mp hnil with h0 | h0
        · omega
        · exact hb h0
      · exact ih c (bytes.drop c)
          (by simp [List.length_drop]; omega) hc r ht

/-- A chunked stream delivers exactly the stream's bytes. -/
theorem chunkStream_flatten :
    ∀ (n : Nat) (c : Nat) (bytes : List Nat), bytes.length ≤ n → 0 < c →
      joinBytes (chunkStream c bytes) = bytes := by
  intro n
  induction n with
  | zero =>
    intro c bytes hlen hc
    have hb : bytes = [] := by
      cases bytes
      · rfl
      · simp at hlen
    rw [chunkStream, if_pos (Or.inl hb)]
    simp [joinBytes, hb]
  | succ n ih =>
    intro c bytes hlen hc
    by_cases hb : bytes = []
    · rw [chunkStream, if_pos (Or.inl hb)]
      simp [joinBytes, hb]
    · rw [chunkStream, if_neg (by simp [hb]; omega)]
      have : 0 < bytes.length := List.length_pos.mpr hb
      simp only [joinBytes, List.map_cons, List.flatten_cons]
      rw [show ((chunkStream c (bytes.drop c)).map (fun r => r.bytes)).flatten
          = joinBytes (chunkStream c (bytes.drop c)) from rfl]
      rw [ih c (bytes.drop c) (by simp [List.length_drop]; omega) hc]
      exact List.take_append_drop c bytes

/-- The bytes emitted by a run that issued exactly one `fd_write` call. -/
theorem emitted_single (m mf : Machine) (call : WriteCall)
    (h : mf.calls = m.calls ++ [call]) :
    emitted m mf = call.regions.flatten := by
  simp [emitted, h]

/-! ### The claims -/

/-- Claim C1, counterexample: in the concrete invocation `IO.write(1, [7])`
from a fresh machine, the I/O-vector region (identifier 1, 8 bytes) is
allocated during the invocation but never freed, refuting the claim that
every transient region — the I/O vector list included — is freed exactly
once before the invocation returns. -/
theorem claim_C1_counterexample :
    MemEvent.alloc 1 8 ∈ (write (initMachine []) 1 [7]).events
      ∧ countFree (write (initMachine []) 1 [7]).events 1 = 0 := by
  decide

/-- Claim C1, amended: in every invocation of the six operations the data
staging buffers (the byte copy of the argument, the UTF-8 encoding of the
text, `readString`'s contiguous copy), the chunk buffer, and the
bytes-transferred count buffer are each freed exactly once on every exit
path — but the I/O-vector region is never freed, and neither is
`writeStringLn`'s 1-byte newline buffer.  The event traces below exhibit
exactly this: every `alloc` except the vector region's (and the newline
byte's) is matched by exactly one `free`. -/
theorem claim_C1_amended (m : Machine) (fd : Descriptor) (data : List Nat)
    (s : Text) (c : Nat) :
    (write m fd data).events
        = m.events ++ [MemEvent.alloc m.next data.length,
            MemEvent.alloc (m.next + 1) 8, MemEvent.alloc (m.next + 2) 4,
            MemEvent.free (m.next + 2), MemEvent.free m.next]
      ∧ (writeString m fd s false).events
        = m.events ++ [MemEvent.alloc m.next ((utf8Encode s).length + 1),
            MemEvent.alloc (m.next + 1) 8, MemEvent.alloc (m.next + 2) 4,
            MemEvent.free (m.next + 2), MemEvent.free m.next]
      ∧ (writeStringLn m fd s).events
        = m.events ++ [MemEvent.alloc m.next ((utf8Encode s).length + 1),
            MemEvent.alloc (m.next + 1) 16, MemEvent.alloc (m.next + 2) 1,
            MemEvent.alloc (m.next + 3) 4, MemEvent.free (m.next + 3),
            MemEvent.free m.next]
      ∧ (read m fd data c).2.2.events
        = m.events ++ [MemEvent.alloc m.next c, MemEvent.alloc (m.next + 1) 8,
            MemEvent.alloc (m.next + 2) 4, MemEvent.free (m.next + 2),
            MemEvent.free m.next]
      ∧ (readAll m fd data c).2.2.events
        = m.events ++ [MemEvent.alloc m.next c, MemEvent.alloc (m.next + 1) 8,
            MemEvent.alloc (m.next + 2) 4, MemEvent.free (m.next + 2),
            MemEvent.free m.next]
      ∧ (readString m fd c).2.events
        = m.events ++ [MemEvent.alloc m.next 4096,
            MemEvent.alloc (m.next + 1) 8, MemEvent.alloc (m.next + 2) 4,
            MemEvent.free (m.next + 2), MemEvent.free m.next,
            MemEvent.alloc (m.next + 3) ((readAll m fd [] 4096).2.1).length,
            MemEvent.free (m.next + 3)] := by
  exact ⟨(write_spec m fd data).2.1, (writeString_spec m fd s).2.1,
    (writeStringLn_spec m fd s).2.1, (read_frame m fd data c).1,
    (readAll_frame m fd data c).1, (readString_spec m fd c).2⟩

/-- Claim C2: for every descriptor, target sequence, chunk size, machine
state and host behaviour, `IO.readAll` never returns the no-data sentinel:
the negative-count guard on the unsigned byte count is unreachable, and on
every loop exit (failure status or zero count) the accumulated sequence is
returned. -/
theorem claim_C2 (m : Machine) (fd : Descriptor) (data : List Nat)
    (c : Nat) :
    (readAll m fd data c).1 ≠ none
      ∧ (readAll m fd data c).1 = some ((readAll m fd data c).2.1) := by
  have h := readAll_eq_some m fd data c
  exact ⟨by rw [h]; simp, h⟩

/-- Claim C3: `IO.writeStringLn(fd, s)` issues exactly one scatter write
call, whose vector has two entries — the UTF-8 encoding of `s` and one
byte of value 10 — so the bytes delivered to the stream are exactly
`utf8(s) ++ [0x0A]`. -/
theorem claim_C3 (m : Machine) (fd : Descriptor) (s : Text) :
    (writeStringLn m fd s).calls
        = m.calls ++ [⟨fd, [(m.next, (utf8Encode s).length), (m.next + 2, 1)],
            [utf8Encode s, [10]]⟩]
      ∧ emitted m (writeStringLn m fd s) = utf8Encode s ++ [10] := by
  obtain ⟨hc, _, _, _, _⟩ := writeStringLn_spec m fd s
  refine ⟨hc, ?_⟩
  rw [emitted_single m _ _ hc]
  simp

/-- Claim C4: `IO.readAll` over a stream of length `L` chunked at size
`c > 0` — whether the host then reports a clean end of stream or a failure
status — appends all `L` bytes of the stream, in order, to the target
sequence and returns it; bytes offered by a failing read are never
appended. -/
theorem claim_C4 (stream : List Nat) (c : Nat) (fd : Descriptor)
    (data : List Nat) (m : Machine) (queueTail : List ReadResult)
    (hc : 0 < c) (hh : m.host = chunkStream c stream ++ queueTail)
    (htail : queueTail = []
      ∨ ∃ e junk rest2, queueTail = ⟨e, junk⟩ :: rest2 ∧ e ≠ 0) :
    (readAll m fd data c).1 = some (data ++ stream)
      ∧ (readAll m fd data c).2.1 = data ++ stream := by
  have hgood := chunkStream_good stream.length c stream le_rfl hc
  have hflat := chunkStream_flatten stream.length c stream le_rfl hc
  rcases htail with h0 | ⟨e, junk, rest2, ht, he⟩
  · subst h0
    rw [List.append_nil] at hh
    have h2 := readAll_run_good m fd data c _ hh hgood
    rw [hflat] at h2
    exact ⟨by rw [readAll_eq_some m fd data c, h2], h2⟩
  · subst ht
    have h2 := readAll_run_fail m fd data c (chunkStream c stream) ⟨e, junk⟩
      rest2 hh hgood he
    rw [hflat] at h2
    exact ⟨by rw [readAll_eq_some m fd data c, h2], h2⟩

/-- Claim C4, witness. -/
theorem claim_C4_witness :
    0 < 2
      ∧ (readAll
          (initMachine (chunkStream 2 [5, 6, 7] ++ [ReadResult.mk 8 [1, 2]]))
          3 [9] 2).1 = some ([9] ++ [5, 6, 7]) :=
  ⟨by decide,
   (claim_C4 [5, 6, 7] 2 3 [9]
      (initMachine (chunkStream 2 [5, 6, 7] ++ [ReadResult.mk 8 [1, 2]]))
      [ReadResult.mk 8 [1, 2]] (by decide) rfl
      (Or.inr ⟨8, [1, 2], [], rfl, by decide⟩)).1⟩

/-- Claim C5: if the single underlying read of `IO.read` reports a zero
byte count — at an exhausted host (end of stream) or from a zero-byte
success response — then `IO.read` returns the no-data sentinel and the
caller's target sequence is exactly as passed in. -/
theorem claim_C5 (m : Machine) (fd : Descriptor) (data : List Nat)
    (c : Nat) :
    (m.host = [] →
        (read m fd data c).1 = none ∧ (read m fd data c).2.1 = data)
      ∧ ∀ (r : ReadResult) (rest : List ReadResult),
          m.host = r :: rest → r.status = 0 → (r.bytes.take c).length = 0 →
          (read m fd data c).1 = none ∧ (read m fd data c).2.1 = data := by
  refine ⟨fun hh => read_run_eof m fd data c hh, fun r rest hh hs hz => ?_⟩
  exact read_run_zero m fd data c r rest hh hs (List.length_eq_zero.mp hz)

/-- Claim C5, witness. -/
theorem claim_C5_witness :
    (initMachine [⟨0, []⟩]).host = ⟨0, []⟩ :: []
      ∧ ((read (initMachine [⟨0, []⟩]) 0 [3, 4] 4096).1 = none
          ∧ (read (initMachine [⟨0, []⟩]) 0 [3, 4] 4096).2.1 = [3, 4]) :=
  ⟨rfl, (claim_C5 (initMachine [⟨0, []⟩]) 0 [3, 4] 4096).2 ⟨0, []⟩ [] rfl rfl
    (by decide)⟩

/-- Claim C6: `IO.read` allocates one buffer of the chunk size (first
allocator event of the trace), performs exactly one underlying read call
(the read counter grows by one), and when that call reports a positive
byte count appends exactly those bytes, in order, to the target sequence
and returns it. -/
theorem claim_C6 (m : Machine) (fd : Descriptor) (data : List Nat)
    (c : Nat) :
    ((read m fd data c).2.2.events
        = m.events ++ [MemEvent.alloc m.next c, MemEvent.alloc (m.next + 1) 8,
            MemEvent.alloc (m.next + 2) 4, MemEvent.free (m.next + 2),
            MemEvent.free m.next]
      ∧ (read m fd data c).2.2.reads = m.reads + 1)
      ∧ ∀ (r : ReadResult) (rest : List ReadResult),
          m.host = r :: rest → r.status = 0 → 0 < (r.bytes.take c).length →
          (read m fd data c).1 = some (data ++ r.bytes.take c)
            ∧ (read m fd data c).2.1 = data ++ r.bytes.take c := by
  obtain ⟨he, hr, _, _⟩ := read_frame m fd data c
  refine ⟨⟨he, hr⟩, fun r rest hh hs hp =>
    read_run_pos m fd data c r rest hh hs ?_⟩
  intro h0
  rw [h0] at hp
  simp at hp

/-- Claim C6, witness. -/
theorem claim_C6_witness :
    (initMachine [⟨0, [10, 20]⟩]).host = ⟨0, [10, 20]⟩ :: []
      ∧ ((read (initMachine [⟨0, [10, 20]⟩]) 0 [1] 4096).1
            = some ([1] ++ List.take 4096 [10, 20])
          ∧ (read (initMachine [⟨0, [10, 20]⟩]) 0 [1] 4096).2.1
            = [1] ++ List.take 4096 [10, 20]) :=
  ⟨rfl, (claim_C6 (initMachine [⟨0, [10, 20]⟩]) 0 [1] 4096).2 ⟨0, [10, 20]⟩ []
    rfl rfl (by decide)⟩

/-- Claim C7: for every string of valid Unicode scalar values, if a
stream's byte content is exactly what `IO.writeString` emitted for that
string, then `IO.readString` applied to that stream returns the string
itself (write-then-read round trip). -/
theorem claim_C7 (s : Text) (m0 m : Machine) (fd0 fd : Descriptor)
    (host : List ReadResult)
    (hvalid : ∀ ch ∈ s, ValidCodePoint ch)
    (hgood : goodHost 4096 host)
    (hbytes : joinBytes host = emitted m0 (writeString m0 fd0 s false))
    (hh : m.host = host) :
    (readString m fd 4096).1 = some s := by
  obtain ⟨hc, _, _, _, _⟩ := writeString_spec m0 fd0 s
  have hemit : emitted m0 (writeString m0 fd0 s false) = utf8Encode s := by
    rw [emitted_single m0 _ _ hc]
    simp
  rw [hemit] at hbytes
  obtain ⟨hres, _⟩ := readString_spec m fd 4096
  rw [hres]
  have harr := readAll_run_good m fd [] 4096 host hh hgood
  rw [harr]
  simp [hbytes, utf8Decode_encode s hvalid]

/-- Claim C7, witness. -/
theorem claim_C7_witness :
    (∀ ch ∈ [104, 105], ValidCodePoint ch)
      ∧ (readString (initMachine [⟨0, [104, 105]⟩]) 0 4096).1
          = some [104, 105] :=
  ⟨by decide,
   claim_C7 [104, 105] (initMachine []) (initMachine [⟨0, [104, 105]⟩]) 1 0
     [⟨0, [104, 105]⟩] (by decide) (by decide) (by decide) rfl⟩

/-- Claim C8: `IO.writeString(fd, s, true)` delegates to
`IO.writeStringLn(fd, s)` and is observationally identical to it: the two
invocations produce the very same machine state (same allocations, same
single scatter write, same bytes). -/
theorem claim_C8 (m : Machine) (fd : Descriptor) (s : Text) :
    writeString m fd s true = writeStringLn m fd s := rfl

/-- Claim C9: `IO.write(fd, [])` performs a data-buffer allocation of size
zero, issues the single underlying write with a one-entry vector of length
zero, emits no bytes to the stream, and completes normally. -/
theorem claim_C9 (m : Machine) (fd : Descriptor) :
    (write m fd []).events
        = m.events ++ [MemEvent.alloc m.next 0, MemEvent.alloc (m.next + 1) 8,
            MemEvent.alloc (m.next + 2) 4, MemEvent.free (m.next + 2),
            MemEvent.free m.next]
      ∧ (write m fd []).calls = m.calls ++ [⟨fd, [(m.next, 0)], [[]]⟩]
      ∧ emitted m (write m fd []) = [] := by
  obtain ⟨hc, he, _, _, _⟩ := write_spec m fd []
  refine ⟨by simpa using he, by simpa using hc, ?_⟩
  rw [emitted_single m _ _ (by simpa using hc)]
  simp

/-- Claim C10: the `newline` parameter of `Console.write` and
`Console.error` defaults to true, so the default invocations (and
`Console.log`) deliver `utf8(s) ++ [0x0A]` via the two-entry scatter write
on descriptors 1 and 2 respectively, while passing `newline = false` emits
`utf8(s)` alone. -/
theorem claim_C10 (m : Machine) (s : Text) :
    Console.writeNewlineDefault = true
      ∧ Console.errorNewlineDefault = true
      ∧ Console.log m s = Console.writeDefault m s
      ∧ emitted m (Console.writeDefault m s) = utf8Encode s ++ [10]
      ∧ (Console.writeDefault m s).calls
          = m.calls ++ [⟨1, [(m.next, (utf8Encode s).length), (m.next + 2, 1)],
              [utf8Encode s, [10]]⟩]
      ∧ emitted m (Console.errorDefault m s) = utf8Encode s ++ [10]
      ∧ (Console.errorDefault m s).calls
          = m.calls ++ [⟨2, [(m.next, (utf8Encode s).length), (m.next + 2, 1)],
              [utf8Encode s, [10]]⟩]
      ∧ emitted m (Console.write m s false) = utf8Encode s
      ∧ emitted m (Console.error m s false) = utf8Encode s := by
  obtain ⟨h1c, _, _, _, _⟩ := writeStringLn_spec m 1 s
  obtain ⟨h2c, _, _, _, _⟩ := writeStringLn_spec m 2 s
  obtain ⟨h3c, _, _, _, _⟩ := writeString_spec m 1 s
  obtain ⟨h4c, _, _, _, _⟩ := writeString_spec m 2 s
  refine ⟨rfl, rfl, rfl, ?_, h1c, ?_, h2c, ?_, ?_⟩
  · show emitted m (writeStringLn m 1 s) = utf8Encode s ++ [10]
    rw [emitted_single m _ _ h1c]
    simp
  · show emitted m (writeStringLn m 2 s) = utf8Encode s ++ [10]
    rw [emitted_single m _ _ h2c]
    simp
  · show emitted m (writeString m 1 s false) = utf8Encode s
    rw [emitted_single m _ _ h3c]
    simp
  · show emitted m (writeString m 2 s false) = utf8Encode s
    rw [emitted_single m _ _ h4c]
    simp

end Wasa
